import Mathlib

/-!
Verification of the `zom` library (`src/lib.rs`): a collection `Zom<T>` that
holds zero, one or many elements without allocating in the zero/one cases.
We embed the Rust code shallowly: `Vec<T>` becomes a list of elements paired
with a capacity counter, mutating methods become state-passing functions, and
iterators over an input sequence become lists.
-/

namespace ZomSpec

/-- Model of Rust's `Vec<T>`: the stored elements together with the
allocated capacity.  Capacity growth follows Rust's amortized-doubling
`reserve` policy (`max (2*cap) required`); the allocator's minimum-block
rounding is not modelled, and no claim observes a capacity produced by a
growth step. -/
structure Vec (α : Type) where
  data : List α
  cap : Nat
deriving DecidableEq

/-- Rust `Vec::len`. -/
def Vec.len (v : Vec α) : Nat := v.data.length

/-- Rust `Vec::with_capacity(n)`: empty vector with capacity `n`. -/
def Vec.with_capacity (n : Nat) : Vec α := ⟨[], n⟩

/-- Rust `Vec::push`: appends an element, growing the capacity if full. -/
def Vec.push (v : Vec α) (x : α) : Vec α :=
  { data := v.data ++ [x]
    cap := if v.data.length + 1 ≤ v.cap then v.cap
           else max (2 * v.cap) (v.data.length + 1) }

/-- Rust `Vec::pop`: removes and returns the last element, if any. -/
def Vec.pop (v : Vec α) : Option α × Vec α :=
  (v.data.getLast?, { v with data := v.data.dropLast })

/-- Rust `Vec::clear`: removes all elements, keeping the allocation. -/
def Vec.clear (v : Vec α) : Vec α := { v with data := [] }

/-- Rust `Vec::shrink_to_fit`: drops excess capacity. -/
def Vec.shrink_to_fit (v : Vec α) : Vec α := { v with cap := v.data.length }

/-- Rust `Vec::reserve(n)`: ensures capacity for `n` additional elements. -/
def Vec.reserve (v : Vec α) (n : Nat) : Vec α :=
  if v.data.length + n ≤ v.cap then v
  else { v with cap := max (2 * v.cap) (v.data.length + n) }

/-- Rust `Vec::extend`: appends all elements of the input, reserving space first. -/
def Vec.extend (v : Vec α) (l : List α) : Vec α :=
  { data := v.data ++ l
    cap := if v.data.length + l.length ≤ v.cap then v.cap
           else max (2 * v.cap) (v.data.length + l.length) }

/-- Rust `Vec::clone`: copies the elements into an exactly-sized allocation. -/
def Vec.clone (v : Vec α) : Vec α := ⟨v.data, v.data.length⟩

/-- Rust `Vec::clone_from`: overwrites `lhs` with `rhs`'s elements, reusing the
existing allocation and growing it only when too small. -/
def Vec.clone_from (lhs rhs : Vec α) : Vec α :=
  { data := rhs.data
    cap := if rhs.data.length ≤ lhs.cap then lhs.cap
           else max (2 * lhs.cap) rhs.data.length }

/-- The tri-state container `Zom<T>` from `src/lib.rs`. -/
inductive Zom (T : Type) where
  | zero : Zom T
  | one : T → Zom T
  | many : Vec T → Zom T
deriving DecidableEq

/-- Rust `Zom::take`: `mem::replace(self, Zom::Zero)` — returns the old value,
the container becomes `Zero`.  In the state-passing embedding the caller
matches on the old value directly. -/
def Zom.take (z : Zom T) : Zom T × Zom T := (z, Zom.zero)

/-- Rust `Zom::to_vec`: the vector the container is forced into (`Zero` gives
`vec![]`, `One(x)` gives `vec![x]` of capacity 1, `Many(v)` gives `v`). -/
def Zom.to_vec : Zom T → Vec T
  | .zero => ⟨[], 0⟩
  | .one a => ⟨[a], 1⟩
  | .many v => v

/-- Rust `Zom::push`: `Zero` becomes `One(val)`; otherwise convert to the `Many`
variant via `to_vec` and append. -/
def Zom.push (z : Zom T) (val : T) : Zom T :=
  match z with
  | .zero => .one val
  | this => .many (this.to_vec.push val)

/-- Rust `Zom::pop`: result value and new state. -/
def Zom.pop : Zom T → Option T × Zom T
  | .zero => (none, .zero)
  | .one a => (some a, .zero)
  | .many v =>
    match v.pop with
    | (val, v) => (val, .many v)

/-- Rust `Zom::clear`. -/
def Zom.clear : Zom T → Zom T
  | .many v => .many v.clear
  | .one _ => .zero
  | .zero => .zero

/-- Rust `Zom::shrink_to_fit`. -/
def Zom.shrink_to_fit (z : Zom T) : Zom T :=
  match z with
  | .many v =>
    match v.data with
    | [] => .zero
    | [a] => .one a
    | _ => .many v.shrink_to_fit
  | this => this

/-- Rust `Deref for Zom`: the slice view of the container. -/
def Zom.deref : Zom T → List T
  | .zero => []
  | .one a => [a]
  | .many v => v.data

/-- Rust `Clone for Zom::clone` (element clones are the identity in a pure
model): clones into the minimal representation. -/
def Zom.clone : Zom T → Zom T
  | .zero => .zero
  | .one a => .one a
  | .many v =>
    match v.data with
    | [] => .zero
    | [a] => .one a
    | _ => .many v.clone

/-- Rust `Clone for Zom::clone_from`: overwrites `self` with the content of
`src`, reusing the target's allocation when both are `Many` and the target
has enough capacity or the source has more than one element. -/
def Zom.clone_from (self src : Zom T) : Zom T :=
  match self, src with
  | .many lhs, .many rhs =>
    if rhs.len ≤ lhs.cap ∨ rhs.len > 1 then
      .many (lhs.clone_from rhs)
    else
      match rhs.data with
      | [] => .zero
      | [a] => .one a
      | _ => .many rhs.clone
  | _, .many rhs =>
    match rhs.data with
    | [] => .zero
    | [a] => .one a
    | _ => .many rhs.clone
  | _, rhs => rhs.clone

/-- Rust `PartialEq for Zom`: delegates to slice equality. -/
def Zom.beq [BEq T] (a b : Zom T) : Bool := a.deref == b.deref

/-- Lexicographic comparison of slices, as Rust's `Ord for [T]`. -/
def listCmp (cmp : T → T → Ordering) : List T → List T → Ordering
  | [], [] => .eq
  | [], _ :: _ => .lt
  | _ :: _, [] => .gt
  | a :: as, b :: bs =>
    match cmp a b with
    | .eq => listCmp cmp as bs
    | o => o

/-- Rust `Ord for Zom`: delegates to slice comparison. -/
def Zom.cmp (cmp : T → T → Ordering) (a b : Zom T) : Ordering :=
  listCmp cmp a.deref b.deref

/-- Rust `Hash for Zom`: delegates to hashing the slice view (`h` abstracts the
hasher's action on a slice). -/
def Zom.hashWith (h : List T → Nat) (z : Zom T) : Nat := h z.deref

/-- Rust `FromIterator for Zom`: the input iterator is modelled as a list; for a
list iterator the size hint is exact. -/
def Zom.from_iter : List T → Zom T
  | [] => .zero
  | [first] => .one first
  | first :: second :: rest =>
    let many : Vec T := Vec.with_capacity (rest.length + 2)
    let many := many.push first
    let many := many.push second
    let many := many.extend rest
    .many many

/-- Rust `Extend for Zom`: short-circuits on an empty input, otherwise takes the
state and rebuilds it with the new elements appended. -/
def Zom.extend (z : Zom T) (l : List T) : Zom T :=
  match l with
  | [] => z
  | first :: rest =>
    match z with
    | .zero => .one first
    | .one a =>
      let v : Vec T := Vec.with_capacity (rest.length + 2)
      let v := v.push a
      let v := v.push first
      let v := v.extend rest
      .many v
    | .many v =>
      let v := v.reserve (rest.length + 2)
      let v := v.push first
      let v := v.extend rest
      .many v

/-- The inner state machine of the consuming iterator; `vec::IntoIter` is
modelled as the list of remaining elements. -/
inductive IntoIterInner (T : Type) where
  | zero : IntoIterInner T
  | one : T → IntoIterInner T
  | many : List T → IntoIterInner T
deriving DecidableEq

/-- Rust `IntoIter<T>`, the consuming iterator over a `Zom`. -/
structure IntoIter (T : Type) where
  inner : IntoIterInner T
deriving DecidableEq

/-- Rust `Zom::into_iter`. -/
def Zom.into_iter : Zom T → IntoIter T
  | .zero => ⟨.zero⟩
  | .one a => ⟨.one a⟩
  | .many v => ⟨.many v.data⟩

/-- Rust `IntoIter::as_slice`: the remaining elements. -/
def IntoIter.as_slice : IntoIter T → List T
  | ⟨.zero⟩ => []
  | ⟨.one a⟩ => [a]
  | ⟨.many many⟩ => many

/-- Rust `Iterator::next for IntoIter`: replaces the state with `Zero`, then for
`One` yields the value, and for `Many` advances the wrapped iterator and
restores the `Many` state. -/
def IntoIter.next : IntoIter T → Option T × IntoIter T
  | ⟨.zero⟩ => (none, ⟨.zero⟩)
  | ⟨.one a⟩ => (some a, ⟨.zero⟩)
  | ⟨.many rest⟩ =>
    match rest with
    | [] => (none, ⟨.many []⟩)
    | x :: xs => (some x, ⟨.many xs⟩)

/-- Rust `ExactSizeIterator::len for IntoIter`. -/
def IntoIter.len (it : IntoIter T) : Nat := it.as_slice.length

/-- Rust `Iterator::size_hint for IntoIter`. -/
def IntoIter.size_hint (it : IntoIter T) : Nat × Option Nat :=
  (it.as_slice.length, some it.as_slice.length)

/-- Repeatedly calling `next` at most `fuel` times, collecting the yielded
elements in order. -/
def IntoIter.drainFuel : Nat → IntoIter T → List T
  | 0, _ => []
  | fuel + 1, it =>
    match it.next with
    | (none, _) => []
    | (some x, it) => x :: IntoIter.drainFuel fuel it

/-- Rust `Zom::iter().cloned()` collected to a list: the borrowed iterator runs
over the slice view, and cloning each element is the identity in a pure
model. -/
def Zom.iterCloned (z : Zom T) : List T := z.deref

/-- Variant predicates, used to state which representation a container is
in. -/
def Zom.isMany : Zom T → Bool
  | .many _ => true
  | _ => false

/-- Rust `flatten`, written from the spec's words: `Empty→[]`, `Single(x)→[x]`,
`Multiple(v)→v`. -/
def flatten : Zom T → List T
  | .zero => []
  | .one x => [x]
  | .many v => v.data

/-! ### Helper lemmas -/

@[simp]
theorem Vec.data_push (v : Vec α) (x : α) : (v.push x).data = v.data ++ [x] := rfl

@[simp]
theorem Vec.data_extend (v : Vec α) (l : List α) : (v.extend l).data = v.data ++ l := rfl

@[simp]
theorem Vec.data_reserve (v : Vec α) (n : Nat) : (v.reserve n).data = v.data := by
  unfold Vec.reserve
  split <;> rfl

@[simp]
theorem Vec.data_clone_from (lhs rhs : Vec α) : (lhs.clone_from rhs).data = rhs.data := rfl

theorem Vec.push_within (v : Vec α) (x : α) (h : v.data.length + 1 ≤ v.cap) :
    v.push x = ⟨v.data ++ [x], v.cap⟩ := by
  unfold Vec.push
  rw [if_pos h]

theorem Vec.extend_within (v : Vec α) (l : List α) (h : v.data.length + l.length ≤ v.cap) :
    v.extend l = ⟨v.data ++ l, v.cap⟩ := by
  unfold Vec.extend
  rw [if_pos h]

theorem Zom.clone_from_many_many (lhs rhs : Vec T) :
    Zom.clone_from (Zom.many lhs) (Zom.many rhs) =
      if rhs.len ≤ lhs.cap ∨ rhs.len > 1 then Zom.many (lhs.clone_from rhs)
      else
        match rhs.data with
        | [] => Zom.zero
        | [a] => Zom.one a
        | _ => Zom.many rhs.clone := rfl

theorem Zom.deref_clone (z : Zom T) : z.clone.deref = z.deref := by
  cases z with
  | zero => rfl
  | one a => rfl
  | many v =>
    rcases v with ⟨d, c⟩
    rcases d with _ | ⟨x, _ | ⟨y, rest⟩⟩ <;> rfl

theorem Zom.deref_from_iter (l : List T) : (Zom.from_iter l).deref = l := by
  match l with
  | [] => rfl
  | [a] => rfl
  | a :: b :: rest => simp [Zom.from_iter, Vec.with_capacity, Zom.deref]

theorem listCmp_self (l : List Nat) : listCmp compare l l = Ordering.eq := by
  induction l with
  | nil => rfl
  | cons a as ih =>
    have h : compare a a = Ordering.eq := by simp [Nat.compare_eq_eq]
    simp [listCmp, h, ih]

theorem IntoIter.drainFuel_eq_as_slice (fuel : Nat) (it : IntoIter T)
    (h : it.as_slice.length ≤ fuel) :
    IntoIter.drainFuel fuel it = it.as_slice := by
  induction fuel generalizing it with
  | zero =>
    have hnil : it.as_slice = [] := List.length_eq_zero.mp (Nat.le_zero.mp h)
    simp [IntoIter.drainFuel, hnil]
  | succ n ih =>
    rcases it with ⟨inner⟩
    cases inner with
    | zero => rfl
    | one a =>
      have h0 : (⟨IntoIterInner.zero⟩ : IntoIter T).as_slice.length ≤ n := by
        simp [IntoIter.as_slice]
      simp [IntoIter.drainFuel, IntoIter.next, IntoIter.as_slice, ih _ h0]
    | many l =>
      cases l with
      | nil => rfl
      | cons x xs =>
        have hx : (⟨IntoIterInner.many xs⟩ : IntoIter T).as_slice.length ≤ n := by
          simp [IntoIter.as_slice] at h ⊢
          omega
        simp [IntoIter.drainFuel, IntoIter.next, IntoIter.as_slice, ih _ hx]

/-! ### Claims -/

/-- C1: For every container `c`, its slice view (`Deref`/`as_ref`) equals
`flatten c`, where `flatten` maps the `Zero` variant to `[]`, `One x` to
`[x]`, and `Many v` to `v` itself; in particular the view has length 0, 1,
or the sequence's length respectively. -/
theorem C1_slice_view_eq_flatten {T : Type} (c : Zom T) :
    c.deref = flatten c
    ∧ (Zom.deref (Zom.zero : Zom T)).length = 0
    ∧ (∀ x : T, (Zom.deref (Zom.one x)).length = 1)
    ∧ (∀ v : Vec T, (Zom.deref (Zom.many v)).length = v.data.length) := by
  refine ⟨?_, rfl, fun x => rfl, fun v => rfl⟩
  cases c <;> rfl

/-- C3: `pop` on `Zero` returns nothing and leaves `Zero`; on `One x` it
returns `x` and the container becomes `Zero`; on `Many v` it removes and
returns the last element if any and the container stays in the `Many`
variant; pushing 0, 1, 2 onto an empty container yields a `Many` holding
`[0, 1, 2]` and three pops return 2, 1, 0 leaving a `Many` holding `[]`. -/
theorem C3_pop_behavior {T : Type} (x : T) (v : Vec T) :
    Zom.pop (Zom.zero : Zom T) = (none, Zom.zero)
    ∧ Zom.pop (Zom.one x) = (some x, Zom.zero)
    ∧ Zom.pop (Zom.many v) = (v.data.getLast?, Zom.many ⟨v.data.dropLast, v.cap⟩)
    ∧ (let s : Zom Nat := ((Zom.zero.push 0).push 1).push 2
       let p1 := s.pop
       let p2 := p1.2.pop
       let p3 := p2.2.pop
       s.isMany = true ∧ s.deref = [0, 1, 2]
       ∧ p1.1 = some 2 ∧ p2.1 = some 1 ∧ p3.1 = some 0
       ∧ p3.2.isMany = true ∧ p3.2.deref = []) :=
  ⟨rfl, rfl, rfl, by decide⟩

/-- C4: `shrink_to_fit` maps a `Many` with 0 elements to `Zero` and a
`Many` with exactly 1 element to `One` of that element; a `Many` with 2 or
more elements stays `Many` with the same content and its capacity shrunk
to its length; `Zero` and `One` are left unchanged. -/
theorem C4_shrink_to_fit_cases {T : Type} (v : Vec T) :
    (v.data = [] → Zom.shrink_to_fit (Zom.many v) = Zom.zero)
    ∧ (∀ a : T, v.data = [a] → Zom.shrink_to_fit (Zom.many v) = Zom.one a)
    ∧ (2 ≤ v.data.length →
        Zom.shrink_to_fit (Zom.many v) = Zom.many ⟨v.data, v.data.length⟩)
    ∧ Zom.shrink_to_fit (Zom.zero : Zom T) = Zom.zero
    ∧ (∀ a : T, Zom.shrink_to_fit (Zom.one a) = Zom.one a) := by
  rcases v with ⟨d, cp⟩
  refine ⟨?_, ?_, ?_, rfl, fun a => rfl⟩
  · intro h
    cases h
    rfl
  · intro a h
    cases h
    rfl
  · intro h
    rcases d with _ | ⟨p, _ | ⟨q, rest⟩⟩
    · simp at h
    · simp at h
    · rfl

/-- Witness for C4 at concrete inputs: `Many []` shrinks to `Zero`,
`Many [5]` to `One 5`, and `Many [5, 6]` stays `Many` with capacity 2. -/
theorem C4_shrink_to_fit_cases_witness :
    Zom.shrink_to_fit (Zom.many (⟨[], 3⟩ : Vec Nat)) = Zom.zero
    ∧ Zom.shrink_to_fit (Zom.many (⟨[5], 3⟩ : Vec Nat)) = Zom.one 5
    ∧ Zom.shrink_to_fit (Zom.many (⟨[5, 6], 7⟩ : Vec Nat)) = Zom.many ⟨[5, 6], 2⟩ :=
  ⟨(C4_shrink_to_fit_cases ⟨[], 3⟩).1 rfl,
   (C4_shrink_to_fit_cases ⟨[5], 3⟩).2.1 5 rfl,
   (C4_shrink_to_fit_cases ⟨[5, 6], 7⟩).2.2.1 (by decide)⟩

/-- C5: `clone` produces the minimal representation of the content:
cloning `Zero` yields `Zero`, cloning `One x` yields `One x`, cloning a
`Many` with 0 elements yields `Zero`, with exactly 1 element yields `One`
of that element, and with 2 or more elements yields `Many` of the same
elements. -/
theorem C5_clone_minimal {T : Type} (x : T) (v : Vec T) :
    Zom.clone (Zom.zero : Zom T) = Zom.zero
    ∧ Zom.clone (Zom.one x) = Zom.one x
    ∧ (v.data = [] → Zom.clone (Zom.many v) = Zom.zero)
    ∧ (∀ a : T, v.data = [a] → Zom.clone (Zom.many v) = Zom.one a)
    ∧ (2 ≤ v.data.length →
        Zom.clone (Zom.many v) = Zom.many ⟨v.data, v.data.length⟩) := by
  rcases v with ⟨d, cp⟩
  refine ⟨rfl, rfl, ?_, ?_, ?_⟩
  · intro h
    cases h
    rfl
  · intro a h
    cases h
    rfl
  · intro h
    rcases d with _ | ⟨p, _ | ⟨q, rest⟩⟩
    · simp at h
    · simp at h
    · rfl

/-- Witness for C5 at the spec's scenario: cloning `Many []` yields
`Zero`, cloning `Many [5]` yields `One 5`, and cloning `Many [5, 6]`
yields a `Many` holding `[5, 6]`. -/
theorem C5_clone_minimal_witness :
    Zom.clone (Zom.many (⟨[], 4⟩ : Vec Nat)) = Zom.zero
    ∧ Zom.clone (Zom.many (⟨[5], 4⟩ : Vec Nat)) = Zom.one 5
    ∧ Zom.clone (Zom.many (⟨[5, 6], 4⟩ : Vec Nat)) = Zom.many ⟨[5, 6], 2⟩ :=
  ⟨(C5_clone_minimal 0 ⟨[], 4⟩).2.2.1 rfl,
   (C5_clone_minimal 0 ⟨[5], 4⟩).2.2.2.1 5 rfl,
   (C5_clone_minimal 0 ⟨[5, 6], 4⟩).2.2.2.2 (by decide)⟩

/-- C2: two containers are equal iff their slice views are equal,
regardless of variant; containers with equal content compare equal, hash
identically (the hash delegates to the slice view) and order identically
(the comparison delegates to the slice view); in particular `One 3` and
`Many [3]` compare equal. -/
theorem C2_eq_via_slice_view (c1 c2 : Zom Nat) (hf : List Nat → Nat) :
    (Zom.beq c1 c2 = true ↔ c1.deref = c2.deref)
    ∧ (c1.deref = c2.deref →
        Zom.beq c1 c2 = true
        ∧ Zom.hashWith hf c1 = Zom.hashWith hf c2
        ∧ Zom.cmp compare c1 c2 = Ordering.eq
        ∧ ∀ c3 : Zom Nat, Zom.cmp compare c1 c3 = Zom.cmp compare c2 c3)
    ∧ Zom.beq (Zom.one 3) (Zom.many ⟨[3], 1⟩) = true := by
  refine ⟨?_, ?_, by decide⟩
  · simp [Zom.beq]
  · intro h
    refine ⟨by simp [Zom.beq, h], by simp [Zom.hashWith, h], ?_, fun c3 => ?_⟩
    · rw [Zom.cmp, h]
      exact listCmp_self _
    · rw [Zom.cmp, Zom.cmp, h]

/-- Witness for C2: `One 3` and `Many [3]` have equal slice views, so they
compare equal under `beq`, hash identically and compare `eq`. -/
theorem C2_eq_via_slice_view_witness :
    Zom.beq (Zom.one 3) (Zom.many (⟨[3], 1⟩ : Vec Nat)) = true
    ∧ Zom.hashWith List.length (Zom.one 3) = Zom.hashWith List.length (Zom.many (⟨[3], 1⟩ : Vec Nat))
    ∧ Zom.cmp compare (Zom.one 3) (Zom.many (⟨[3], 1⟩ : Vec Nat)) = Ordering.eq :=
  ⟨((C2_eq_via_slice_view (Zom.one 3) (Zom.many ⟨[3], 1⟩) List.length).2.1 (by decide)).1,
   ((C2_eq_via_slice_view (Zom.one 3) (Zom.many ⟨[3], 1⟩) List.length).2.1 (by decide)).2.1,
   ((C2_eq_via_slice_view (Zom.one 3) (Zom.many ⟨[3], 1⟩) List.length).2.1 (by decide)).2.2.1⟩

/-- C6: `from_iter` on an input yielding 0 items gives `Zero`, on exactly
one item `x` gives `One x`, and on 2 or more items gives `Many` of all
items in order, with the backing allocation pre-sized to the input's size
hint plus 2 (for a list iterator the hint is exact, so the capacity equals
the number of items collected, hence is at least that count). -/
theorem C6_from_iter_cases {T : Type} (a b : T) (rest : List T) :
    Zom.from_iter ([] : List T) = Zom.zero
    ∧ Zom.from_iter [a] = Zom.one a
    ∧ Zom.from_iter (a :: b :: rest) = Zom.many ⟨a :: b :: rest, rest.length + 2⟩
    ∧ (a :: b :: rest).length ≤ rest.length + 2 := by
  refine ⟨rfl, rfl, ?_, by simp⟩
  have e1 : (Vec.with_capacity (rest.length + 2) : Vec T).push a = ⟨[a], rest.length + 2⟩ :=
    Vec.push_within _ _ (by simp [Vec.with_capacity])
  have e2 : (⟨[a], rest.length + 2⟩ : Vec T).push b = ⟨[a, b], rest.length + 2⟩ :=
    Vec.push_within _ _ (by simp)
  have e3 : (⟨[a, b], rest.length + 2⟩ : Vec T).extend rest = ⟨a :: b :: rest, rest.length + 2⟩ :=
    Vec.extend_within _ _ (by simp [Nat.add_comm])
  simp only [Zom.from_iter]
  rw [e1, e2, e3]

/-- C7: `extend` with an empty input leaves the container unchanged,
variant included; with a non-empty input, `Zero` plus one item becomes
`One`, `One` plus one or more items becomes `Many` with the old single
value first, and `Many` has the items appended in place in order. -/
theorem C7_extend_cases {T : Type} (c : Zom T) (x a first : T) (rest : List T) (v : Vec T) :
    Zom.extend c [] = c
    ∧ Zom.extend (Zom.zero : Zom T) [x] = Zom.one x
    ∧ (∃ w : Vec T, Zom.extend (Zom.one a) (first :: rest) = Zom.many w
        ∧ w.data = a :: first :: rest)
    ∧ (∃ w : Vec T, Zom.extend (Zom.many v) (first :: rest) = Zom.many w
        ∧ w.data = v.data ++ first :: rest) := by
  refine ⟨rfl, rfl, ⟨_, rfl, ?_⟩, ⟨_, rfl, ?_⟩⟩
  · simp [Vec.with_capacity]
  · simp

/-- C8: the consuming iterator of a container starts with the container's
slice view as its remaining elements; each `next` yields the head of the
remaining slice and leaves its tail; once the remaining slice is empty,
`next` returns `none` and leaves the iterator unchanged (so it stays empty
forever); `len` and `size_hint` report the exact remaining length; and
draining the iterator yields exactly the container's elements in order. -/
theorem C8_into_iter_behavior {T : Type} (c : Zom T) (it : IntoIter T) (fuel : Nat) :
    (Zom.into_iter c).as_slice = c.deref
    ∧ (it.next.1 = it.as_slice.head? ∧ it.next.2.as_slice = it.as_slice.tail)
    ∧ (it.as_slice = [] → it.next = (none, it))
    ∧ it.len = it.as_slice.length
    ∧ it.size_hint = (it.len, some it.len)
    ∧ (c.deref.length ≤ fuel → IntoIter.drainFuel fuel (Zom.into_iter c) = c.deref) := by
  have hslice : (Zom.into_iter c).as_slice = c.deref := by cases c <;> rfl
  refine ⟨hslice, ?_, ?_, rfl, rfl, ?_⟩
  · rcases it with ⟨inner⟩
    rcases inner with _ | a | ⟨_ | ⟨y, ys⟩⟩ <;> exact ⟨rfl, rfl⟩
  · intro h
    rcases it with ⟨inner⟩
    rcases inner with _ | a | ⟨_ | ⟨y, ys⟩⟩
    · rfl
    · exact absurd h (by simp [IntoIter.as_slice])
    · rfl
    · exact absurd h (by simp [IntoIter.as_slice])
  · intro h
    rw [IntoIter.drainFuel_eq_as_slice fuel _ (by rw [hslice]; exact h), hslice]

/-- Witness for C8: on an exhausted iterator `next` returns `none` and
leaves it unchanged, and draining the iterator of `Many [1, 2]` with
enough fuel yields `[1, 2]`. -/
theorem C8_into_iter_behavior_witness :
    IntoIter.next (⟨IntoIterInner.zero⟩ : IntoIter Nat) = (none, ⟨IntoIterInner.zero⟩)
    ∧ IntoIter.drainFuel 2 (Zom.into_iter (Zom.many (⟨[1, 2], 2⟩ : Vec Nat))) = [1, 2] :=
  ⟨(C8_into_iter_behavior (Zom.zero : Zom Nat) ⟨IntoIterInner.zero⟩ 0).2.2.1 rfl,
   (C8_into_iter_behavior (Zom.many (⟨[1, 2], 2⟩ : Vec Nat)) ⟨IntoIterInner.zero⟩ 2).2.2.2.2.2
     (by decide)⟩

/-- C9: collecting the clones of the elements produced by `c.iter()` into
a new container yields a container equal to `c` under the container's own
(content-based) equality. -/
theorem C9_collect_iter_roundtrip {T : Type} [BEq T] [LawfulBEq T] (c : Zom T) :
    Zom.beq (Zom.from_iter c.iterCloned) c = true := by
  simp [Zom.beq, Zom.iterCloned, Zom.deref_from_iter]

/-- Witness for C9 at `Many [7]`: the collected container is `One 7`, in a
different variant, yet `beq`-equal to the source. -/
theorem C9_collect_iter_roundtrip_witness :
    Zom.beq (Zom.from_iter (Zom.iterCloned (Zom.many (⟨[7], 9⟩ : Vec Nat))))
      (Zom.many ⟨[7], 9⟩) = true :=
  C9_collect_iter_roundtrip (Zom.many ⟨[7], 9⟩)

/-- C10: for every target `a` and source `b`, `a.clone_from b` is
content-equal to `b` (equal slice views) in all nine variant
combinations; on the allocation-reuse path the result can stay in the
`Many` variant with 0 elements rather than the minimal representation,
as `clone_from` of `Many [1, 2]` from `Many []` shows. -/
theorem C10_clone_from_content {T : Type} (a b : Zom T) :
    (a.clone_from b).deref = b.deref
    ∧ Zom.clone_from (Zom.many (⟨[1, 2], 2⟩ : Vec Nat)) (Zom.many ⟨[], 0⟩)
        = Zom.many ⟨[], 2⟩ := by
  refine ⟨?_, by decide⟩
  cases a with
  | zero =>
    cases b with
    | zero => rfl
    | one y => rfl
    | many rhs =>
      rcases rhs with ⟨d, cp⟩
      rcases d with _ | ⟨p, _ | ⟨q, rest⟩⟩ <;> rfl
  | one x =>
    cases b with
    | zero => rfl
    | one y => rfl
    | many rhs =>
      rcases rhs with ⟨d, cp⟩
      rcases d with _ | ⟨p, _ | ⟨q, rest⟩⟩ <;> rfl
  | many lhs =>
    cases b with
    | zero => rfl
    | one y => rfl
    | many rhs =>
      rw [Zom.clone_from_many_many]
      split
      · rfl
      · rcases rhs with ⟨d, cp⟩
        rcases d with _ | ⟨p, _ | ⟨q, rest⟩⟩ <;> rfl

end ZomSpec
